import Mathlib

/-!
Verification development for the OmniMind agent-orchestration core.

The stream-consumer definitions embed the SSE processing loop of
generateSummary in src/components/ChatSidebar.tsx, and the URL extraction
definitions embed the link/media classification of the same component.
The protocol codec, tool executor, agent runtime loop, cooldown logic and
strip function belong to the agents layer of the repository, which is not
part of the shipped src tree; those definitions are modelled from the
specification as indicated by their doc comments.
-/

/-- Streaming display phase, mirroring the streamingPhase React state of
ChatSidebar.tsx (values idle, reasoning, output). -/
inductive Phase where
  | idle
  | reasoning
  | output
deriving DecidableEq, Repr

/-- State of the SSE summary consumer in generateSummary
(ChatSidebar.tsx lines 520-606): reasoningContent and finalContent are the
local accumulator variables of the loop, reasoningShown mirrors the
reasoning React state, phase mirrors the streamingPhase React state.
The summary React state is set to finalContent at every update and cleared
exactly when finalContent is cleared, so it always equals finalContent and
is not tracked separately. -/
structure SState where
  reasoningContent : String
  finalContent : String
  reasoningShown : String
  phase : Phase
deriving DecidableEq, Repr

/-- Consumer state at the start of the stream loop: generateSummary runs
setSummary of the empty string, setReasoning of the empty string and
setStreamingPhase idle before reading events. -/
def initState : SState :=
  { reasoningContent := "", finalContent := "", reasoningShown := "", phase := Phase.idle }

/-- True when the character list contains the two-character control marker,
a less-than sign followed by a vertical bar: the test done by the regex on
ChatSidebar.tsx line 574. -/
def hasCtl : List Char → Bool
  | [] => false
  | [_] => false
  | a :: b :: rest => (a == '<' && b == '|') || hasCtl (b :: rest)

/-- String form of hasCtl. -/
def hasCtlStr (s : String) : Bool := hasCtl s.data

/-- One decoded stream event, i.e. the parsed.type and parsed.content pair of
a data line in generateSummary; other covers every unrecognized type. -/
inductive SEvent where
  | channelSwitch (c : String)
  | reasoning (c : String)
  | final (c : String)
  | chunk (c : String)
  | other
deriving DecidableEq, Repr

/-- Effect of one decoded event on the consumer state, transcribed from the
if chain of ChatSidebar.tsx lines 547-581. An empty content string is falsy
in the source, so events with empty content fall through every branch. -/
def stepEvent (st : SState) : SEvent → SState
  | SEvent.channelSwitch c =>
    if c = "analysis" then
      { st with phase := Phase.reasoning, reasoningContent := "", reasoningShown := "" }
    else if c = "final" then
      { st with phase := Phase.output, reasoningShown := "", finalContent := "" }
    else st
  | SEvent.reasoning c =>
    if c = "" then st
    else { st with reasoningContent := st.reasoningContent ++ c,
                   reasoningShown := st.reasoningContent ++ c }
  | SEvent.final c =>
    if c = "" then st
    else { st with finalContent := st.finalContent ++ c }
  | SEvent.chunk c =>
    if c = "" then st
    else if hasCtlStr c || hasCtlStr st.finalContent then st
    else { st with finalContent := st.finalContent ++ c, phase := Phase.output }
  | SEvent.other => st

/-- One SSE data line of the summary stream as seen by generateSummary:
a DONE terminator, a fragment that fails JSON parsing, a parsed object whose
error field is set, or a decoded event. -/
inductive Payload where
  | done
  | malformed
  | errorField (msg : String)
  | event (e : SEvent)
deriving DecidableEq, Repr

/-- Processing of one data line, from ChatSidebar.tsx lines 536-586: the DONE
terminator is skipped by the continue statement; a JSON parse failure and the
throw on an error field are both caught by the surrounding catch, which only
logs, so each leaves the state unchanged and processing moves on. -/
def processPayload (st : SState) : Payload → SState
  | Payload.done => st
  | Payload.malformed => st
  | Payload.errorField _ => st
  | Payload.event e => stepEvent st e

/-- Consuming a list of data lines starting from a given state. -/
def consumeFrom (st : SState) (ps : List Payload) : SState :=
  ps.foldl processPayload st

/-- Consuming a whole stream from the initial state, as generateSummary does. -/
def consume (ps : List Payload) : SState := consumeFrom initState ps

/-- Modelled from the spec: section 4.4 requires streaming consumers to treat
DONE-equivalent terminators and malformed JSON fragments as end-of-stream, so
this reference consumer stops at the first such line. The generateSummary
loop is compared against it; the consumer code itself is in src, only this
stop-at-terminator reading of the spec is modelled here. -/
def consumeStoppingFrom (st : SState) : List Payload → SState
  | [] => st
  | Payload.done :: _ => st
  | Payload.malformed :: _ => st
  | Payload.errorField e :: ps => consumeStoppingFrom (processPayload st (Payload.errorField e)) ps
  | Payload.event e :: ps => consumeStoppingFrom (processPayload st (Payload.event e)) ps

/-- Stop-at-terminator consumption of a whole stream from the initial state. -/
def consumeStopping (ps : List Payload) : SState := consumeStoppingFrom initState ps

/-- Concatenation of a list of strings, left to right. -/
def concatList : List String → String
  | [] => ""
  | s :: rest => s ++ concatList rest

theorem consumeFrom_append (st : SState) (l1 l2 : List Payload) :
    consumeFrom st (l1 ++ l2) = consumeFrom (consumeFrom st l1) l2 := by
  simp [consumeFrom, List.foldl_append]

theorem consumeFrom_finals (fs : List String) : ∀ st : SState,
    (consumeFrom st (fs.map (fun s => Payload.event (SEvent.final s)))).finalContent
      = st.finalContent ++ concatList fs := by
  induction fs with
  | nil => intro st; simp [consumeFrom, concatList]
  | cons s fs ih =>
    intro st
    simp only [List.map_cons, consumeFrom, List.foldl_cons] at *
    rw [ih]
    by_cases h : s = ""
    · subst h
      simp [processPayload, stepEvent, concatList]
    · simp [processPayload, stepEvent, h, concatList, String.append_assoc]

/-- C1: the summary shown by generateSummary never takes content from the
analysis channel. For any stream whose tail is a switch to the final channel
followed by final-channel events, whatever came before (in particular an
analysis switch and its reasoning events), the resulting summary is exactly
the concatenated final-channel content; and a reasoning event never changes
the accumulated summary. -/
theorem c1_summary_excludes_reasoning :
    (∀ (ps : List Payload) (fs : List String),
      (consume (ps ++ Payload.event (SEvent.channelSwitch "final")
          :: fs.map (fun s => Payload.event (SEvent.final s)))).finalContent
        = concatList fs)
    ∧ ∀ (st : SState) (s : String),
        (stepEvent st (SEvent.reasoning s)).finalContent = st.finalContent := by
  constructor
  · intro ps fs
    rw [consume, consumeFrom_append]
    simp only [consumeFrom, List.foldl_cons, processPayload, stepEvent]
    rw [if_neg (by decide), if_pos (by trivial)]
    have h := consumeFrom_finals fs
      { consumeFrom initState ps with
          phase := Phase.output, reasoningShown := "", finalContent := "" }
    simp only [consumeFrom] at h ⊢
    rw [h]
    rfl
  · intro st s
    by_cases h : s = "" <;> simp [stepEvent, h]

/-- C2 counterexample: after a DONE terminator line, the generateSummary loop
keeps consuming stream events, so a later final-channel event still lands in
the summary; it does not stop at the terminator as the claim states, which the
stop-at-terminator reference consumer makes visible. -/
theorem c2_counterexample :
    (consume [Payload.done, Payload.event (SEvent.final "X")]).finalContent = "X"
    ∧ (consumeStopping [Payload.done, Payload.event (SEvent.final "X")]).finalContent = ""
    ∧ consume [Payload.done, Payload.event (SEvent.final "X")]
        ≠ consumeStopping [Payload.done, Payload.event (SEvent.final "X")] := by
  refine ⟨rfl, rfl, ?_⟩
  decide

/-- C2 amended: generateSummary treats a DONE terminator line and a malformed
JSON fragment as non-fatal no-ops: each such line is skipped, no error is
raised, and consumption continues with the remaining events of the stream. -/
theorem c2_done_malformed_nonfatal :
    ∀ (st : SState) (ps : List Payload),
      processPayload st Payload.done = st
      ∧ processPayload st Payload.malformed = st
      ∧ consumeFrom st (Payload.done :: ps) = consumeFrom st ps
      ∧ consumeFrom st (Payload.malformed :: ps) = consumeFrom st ps := by
  intro st ps
  refine ⟨rfl, rfl, ?_, ?_⟩ <;> simp [consumeFrom, processPayload]

/-- C9: a legacy chunk event is appended to the summary only when neither its
content nor the summary accumulated so far contains the control marker; when
either does, the consumer state is left completely unchanged, and otherwise
the nonempty chunk content is appended and the phase becomes output. -/
theorem c9_chunk_ctl_guard :
    ∀ (st : SState) (c : String),
      ((hasCtlStr c = true ∨ hasCtlStr st.finalContent = true) →
        stepEvent st (SEvent.chunk c) = st)
      ∧ (hasCtlStr c = false → hasCtlStr st.finalContent = false → c ≠ "" →
        stepEvent st (SEvent.chunk c)
          = { st with finalContent := st.finalContent ++ c, phase := Phase.output }) := by
  intro st c
  constructor
  · intro h
    by_cases hc : c = ""
    · simp [stepEvent, hc]
    · rcases h with h | h <;> simp [stepEvent, hc, h]
  · intro h1 h2 hc
    simp [stepEvent, hc, h1, h2]

/-- C9 witness: a chunk carrying the control marker is dropped, while a plain
chunk is appended to the summary. -/
theorem c9_chunk_ctl_guard_witness :
    stepEvent initState (SEvent.chunk "<|x") = initState
    ∧ stepEvent initState (SEvent.chunk "hi")
        = { initState with
            finalContent := initState.finalContent ++ "hi",
            phase := Phase.output } :=
  ⟨(c9_chunk_ctl_guard initState "<|x").1 (Or.inl (by decide)),
   (c9_chunk_ctl_guard initState "hi").2 (by decide) (by decide) (by decide)⟩

/-- A parsed tool invocation: tool name from the closed supported set plus the
raw argument payload (spec section 3, ToolCall). -/
structure ToolCall where
  tool : String
  arg : String
deriving DecidableEq, Repr

/-- Modelled from the spec: the closed tool-name set of section 3
(context-lookup, long-context-lookup, web-search, knowledge-base-query,
react) keyed by the legacy bracket tag names used by the agents layer
(GET_CONTEXT, GET_LONG_CONTEXT, WEB_SEARCH, LOCAL_RAG, REACT, listed in the
repository development notes); the codec itself, agents/tools.py with
parse_tool_calls and remove_tool_calls, is not under src. -/
def toolNameMap : String → Option String
  | "GET_CONTEXT" => some "context-lookup"
  | "GET_LONG_CONTEXT" => some "long-context-lookup"
  | "WEB_SEARCH" => some "web-search"
  | "LOCAL_RAG" => some "knowledge-base-query"
  | "REACT" => some "react"
  | _ => none

/-- Modelled from the spec: reads the TOOLNAME part of a legacy bracket tag,
an uppercase or underscore run, up to the colon separator; fails when any
other character appears first. -/
def readTagName : List Char → Option (List Char × List Char)
  | [] => none
  | c :: rest =>
    if c = ':' then some ([], rest)
    else if c.isUpper || c == '_' then
      match readTagName rest with
      | some (n, r) => some (c :: n, r)
      | none => none
    else none

/-- Modelled from the spec: reads the argument part of a legacy bracket tag up
to the closing bracket; an opening bracket or a missing closing bracket makes
the tag malformed. -/
def readTagArg : List Char → Option (List Char × List Char)
  | [] => none
  | c :: rest =>
    if c = ']' then some ([], rest)
    else if c = '[' then none
    else
      match readTagArg rest with
      | some (a, r) => some (c :: a, r)
      | none => none

/-- Modelled from the spec: reads one whole legacy bracket tag body (after the
opening bracket): a known tool name, the colon, the argument and the closing
bracket; an unknown name or malformed shape yields none, so the text is left
untouched (fail-open, spec section 4.1). -/
def readTag (cs : List Char) : Option (ToolCall × List Char) :=
  match readTagName cs with
  | some (n, r1) =>
    match toolNameMap (String.mk n) with
    | some tool =>
      match readTagArg r1 with
      | some (a, r2) => some ({ tool := tool, arg := String.mk a }, r2)
      | none => none
    | none => none
  | none => none

/-- Modelled from the spec: one left-to-right scan of the model output,
extracting well-formed known bracket tags as ToolCalls and removing them from
the visible text, leaving everything else (including unrecognized or
malformed tags) verbatim. The fuel argument only bounds the recursion and is
always instantiated with the input length, which suffices because every step
consumes at least one character. -/
def parseTagsAux : Nat → List Char → List Char × List ToolCall
  | 0, cs => (cs, [])
  | _ + 1, [] => ([], [])
  | fuel + 1, c :: rest =>
    if c = '[' then
      match readTag rest with
      | some (tc, r2) =>
        let p := parseTagsAux fuel r2
        (p.1, tc :: p.2)
      | none =>
        let p := parseTagsAux fuel rest
        (c :: p.1, p.2)
    else
      let p := parseTagsAux fuel rest
      (c :: p.1, p.2)

/-- Tag extraction over a character list with sufficient fuel. -/
def parseTags (cs : List Char) : List Char × List ToolCall :=
  parseTagsAux cs.length cs

/-- Modelled from the spec: the parse operation of the Protocol Codec for the
legacy inline bracket-tag family, returning the visible text and the tool
calls in the order they appeared. -/
def parseToolCalls (s : String) : String × List ToolCall :=
  (String.mk (parseTags s.data).1, (parseTags s.data).2)

theorem readTagName_length : ∀ (cs n r : List Char),
    readTagName cs = some (n, r) → r.length < cs.length := by
  intro cs
  induction cs with
  | nil => intro n r h; simp [readTagName] at h
  | cons c rest ih =>
    intro n r h
    simp only [readTagName] at h
    split at h
    · cases h
      simp
    · split at h
      · split at h
        · rename_i heq
          cases h
          exact Nat.lt_trans (ih _ _ heq) (by simp)
        · cases h
      · cases h

theorem readTagArg_length : ∀ (cs a r : List Char),
    readTagArg cs = some (a, r) → r.length < cs.length := by
  intro cs
  induction cs with
  | nil => intro a r h; simp [readTagArg] at h
  | cons c rest ih =>
    intro a r h
    simp only [readTagArg] at h
    split at h
    · cases h
      simp
    · split at h
      · cases h
      · split at h
        · rename_i heq
          cases h
          exact Nat.lt_trans (ih _ _ heq) (by simp)
        · cases h

theorem readTag_length : ∀ (cs : List Char) (tc : ToolCall) (r : List Char),
    readTag cs = some (tc, r) → r.length < cs.length := by
  intro cs tc r h
  simp only [readTag] at h
  split at h
  · rename_i n r1 hname
    split at h
    · split at h
      · rename_i a r2 harg
        cases h
        exact Nat.lt_trans (readTagArg_length _ _ _ harg) (readTagName_length _ _ _ hname)
      · cases h
    · cases h
  · cases h

theorem readTagName_spec : ∀ (n rest : List Char),
    (∀ c ∈ n, c.isUpper = true ∨ c = '_') →
    readTagName (n ++ ':' :: rest) = some (n, rest) := by
  intro n
  induction n with
  | nil => intro rest _; simp [readTagName]
  | cons c n ih =>
    intro rest h
    have hc := h c (by simp)
    have hne : ¬ (c = ':') := by
      rcases hc with h1 | h1
      · intro he; rw [he] at h1; simp at h1
      · intro he; rw [he] at h1; simp at h1
    have hok : (c.isUpper || c == '_') = true := by
      rcases hc with h1 | h1
      · simp [h1]
      · simp [h1]
    simp only [List.cons_append, readTagName]
    rw [if_neg hne, if_pos hok]
    rw [List.append_eq, ih rest (fun d hd => h d (by simp [hd]))]

theorem readTagArg_spec : ∀ (a rest : List Char),
    ']' ∉ a → '[' ∉ a →
    readTagArg (a ++ ']' :: rest) = some (a, rest) := by
  intro a
  induction a with
  | nil => intro rest _ _; simp [readTagArg]
  | cons c a ih =>
    intro rest h1 h2
    have hne1 : ¬ (c = ']') := fun he => h1 (by simp [he])
    have hne2 : ¬ (c = '[') := fun he => h2 (by simp [he])
    simp only [List.cons_append, readTagArg]
    rw [if_neg hne1, if_neg hne2]
    rw [List.append_eq, ih rest (fun hd => h1 (by simp [hd])) (fun hd => h2 (by simp [hd]))]

theorem readTag_spec : ∀ (n a rest : List Char) (t : String),
    (∀ c ∈ n, c.isUpper = true ∨ c = '_') →
    toolNameMap (String.mk n) = some t →
    ']' ∉ a → '[' ∉ a →
    readTag (n ++ ':' :: (a ++ ']' :: rest))
      = some ({ tool := t, arg := String.mk a }, rest) := by
  intro n a rest t hn ht ha1 ha2
  simp only [readTag, readTagName_spec n (a ++ ']' :: rest) hn, ht,
    readTagArg_spec a rest ha1 ha2]

theorem parseTagsAux_congr : ∀ (fuel1 : Nat) (cs : List Char) (fuel2 : Nat),
    cs.length ≤ fuel1 → cs.length ≤ fuel2 →
    parseTagsAux fuel1 cs = parseTagsAux fuel2 cs := by
  intro fuel1
  induction fuel1 with
  | zero =>
    intro cs fuel2 h1 _
    have : cs = [] := by
      cases cs with
      | nil => rfl
      | cons c r => simp at h1
    subst this
    cases fuel2 <;> simp [parseTagsAux]
  | succ f ih =>
    intro cs fuel2 h1 h2
    cases cs with
    | nil => cases fuel2 <;> simp [parseTagsAux]
    | cons c rest =>
      cases fuel2 with
      | zero => simp at h2
      | succ g =>
        simp only [List.length_cons, Nat.succ_le_succ_iff] at h1 h2
        by_cases hc : c = '['
        · cases hr : readTag rest with
          | none => simp [parseTagsAux, hc, hr, ih rest g h1 h2]
          | some pr =>
            have hlen := readTag_length rest pr.1 pr.2 (by rw [hr])
            simp [parseTagsAux, hc, hr,
              ih pr.2 g (Nat.le_of_lt (Nat.lt_of_lt_of_le hlen h1))
                (Nat.le_of_lt (Nat.lt_of_lt_of_le hlen h2))]
        · simp [parseTagsAux, hc, ih rest g h1 h2]

theorem parseTags_noBracket : ∀ (cs : List Char), '[' ∉ cs →
    parseTags cs = (cs, []) := by
  intro cs
  induction cs with
  | nil => intro _; simp [parseTags, parseTagsAux]
  | cons c rest ih =>
    intro h
    have hc : ¬ (c = '[') := fun he => h (by simp [he])
    have hrest : '[' ∉ rest := fun hd => h (by simp [hd])
    have hcongr := parseTagsAux_congr rest.length rest (rest.length + 1)
      (Nat.le_refl _) (Nat.le_succ _)
    simp only [parseTags] at ih
    simp [parseTags, parseTagsAux, hc, ← hcongr, ih hrest]

theorem parseTags_split : ∀ (pre : List Char), '[' ∉ pre →
    ∀ (n a rest : List Char) (t : String),
    (∀ c ∈ n, c.isUpper = true ∨ c = '_') →
    toolNameMap (String.mk n) = some t →
    ']' ∉ a → '[' ∉ a →
    parseTags (pre ++ '[' :: (n ++ ':' :: (a ++ ']' :: rest)))
      = (pre ++ (parseTags rest).1,
         { tool := t, arg := String.mk a } :: (parseTags rest).2) := by
  intro pre
  induction pre with
  | nil =>
    intro _ n a rest t hn ht ha1 ha2
    have hr := readTag_spec n a rest t hn ht ha1 ha2
    have hlen : rest.length ≤ (n ++ ':' :: (a ++ ']' :: rest)).length := by
      simp [List.length_append]
      omega
    have hcongr := parseTagsAux_congr (n ++ ':' :: (a ++ ']' :: rest)).length rest
      rest.length hlen (Nat.le_refl _)
    simp [parseTags, parseTagsAux, hr, hcongr]
    constructor <;>
      rw [parseTagsAux_congr (n.length + (a.length + (rest.length + 1) + 1)) rest
        rest.length (by omega) (Nat.le_refl _)]
  | cons c pre ih =>
    intro h n a rest t hn ht ha1 ha2
    have hc : ¬ (c = '[') := fun he => h (by simp [he])
    have hpre : '[' ∉ pre := fun hd => h (by simp [hd])
    have hbig := ih hpre n a rest t hn ht ha1 ha2
    simp only [parseTags] at hbig
    simp only [List.length_append, List.length_cons] at hbig
    simp [parseTags, parseTagsAux, hc, hbig]

/-- C3: the legacy bracket-tag scenario and its generalization: a well-formed
known tag embedded in otherwise bracket-free text is extracted as a ToolCall
and removed from the visible text, and the scenario input yields visible text
Sure-space and one web-search call with argument openai gpt. -/
theorem c3_bracket_tag_extraction :
    parseToolCalls "Sure! [WEB_SEARCH:openai gpt]"
        = ("Sure! ", [{ tool := "web-search", arg := "openai gpt" }])
    ∧ ∀ (pre n a post : List Char) (t : String),
        '[' ∉ pre → (∀ c ∈ n, c.isUpper = true ∨ c = '_') →
        toolNameMap (String.mk n) = some t →
        ']' ∉ a → '[' ∉ a → '[' ∉ post →
        parseToolCalls (String.mk (pre ++ '[' :: (n ++ ':' :: (a ++ ']' :: post))))
          = (String.mk (pre ++ post), [{ tool := t, arg := String.mk a }]) := by
  have hgen : ∀ (pre n a post : List Char) (t : String),
      '[' ∉ pre → (∀ c ∈ n, c.isUpper = true ∨ c = '_') →
      toolNameMap (String.mk n) = some t →
      ']' ∉ a → '[' ∉ a → '[' ∉ post →
      parseToolCalls (String.mk (pre ++ '[' :: (n ++ ':' :: (a ++ ']' :: post))))
        = (String.mk (pre ++ post), [{ tool := t, arg := String.mk a }]) := by
    intro pre n a post t hpre hn ht ha1 ha2 hpost
    have hsplit := parseTags_split pre hpre n a post t hn ht ha1 ha2
    have hnb := parseTags_noBracket post hpost
    simp [parseToolCalls, hsplit, hnb]
  refine ⟨?_, hgen⟩
  have h := hgen "Sure! ".data "WEB_SEARCH".data "openai gpt".data [] "web-search"
    (by decide) (by decide) (by decide) (by decide) (by decide) (by decide)
  have heq : "Sure! [WEB_SEARCH:openai gpt]"
      = String.mk ("Sure! ".data ++ '[' :: ("WEB_SEARCH".data ++ ':' :: ("openai gpt".data ++ ']' :: []))) := by
    decide
  rw [heq, h]
  have hv : String.mk ("Sure! ".data ++ []) = "Sure! " := by decide
  rw [hv]

/-- C3 witness: the general part applied at a concrete react tag. -/
theorem c3_bracket_tag_extraction_witness :
    parseToolCalls (String.mk ("Hi ".data ++ '[' :: ("REACT".data ++ ':' :: ("ok".data ++ ']' :: "!".data))))
      = (String.mk ("Hi ".data ++ "!".data), [{ tool := "react", arg := String.mk "ok".data }]) :=
  c3_bracket_tag_extraction.2 "Hi ".data "REACT".data "ok".data "!".data "react"
    (by decide) (by decide) (by decide) (by decide) (by decide) (by decide)

/-- The closed supported tool-name set (spec section 3). -/
def supportedTools : List String :=
  ["context-lookup", "long-context-lookup", "web-search", "knowledge-base-query", "react"]

/-- Normalized outcome of one tool call (spec section 3, ToolResult): tool
name, success flag, and the normalized payload or error description. -/
structure ToolResult where
  tool : String
  success : Bool
  payload : String
deriving DecidableEq, Repr

/-- Modelled from the spec: section 4.3 dispatch of the Tool Executor, which
belongs to the agents layer and is not under src. Dispatch is keyed by the
closed tool-name set; collab maps a supported tool name and argument to the
collaborator outcome. The first component of the result lists the external
collaborators contacted by the call, so an unknown tool name yields the
unsupported-tool failure with no collaborator contacted. -/
def dispatchTool (collab : String → String → ToolResult) (tc : ToolCall) :
    List String × ToolResult :=
  if tc.tool ∈ supportedTools then ([tc.tool], collab tc.tool tc.arg)
  else ([], { tool := tc.tool, success := false, payload := "unsupported tool" })

/-- Modelled from the spec: one round of the Tool Executor appends the result
of every parsed call, failed or not, to the context in parse order (spec
sections 4.3 and 8); in independent mode the results are merged back in the
same original order, so both modes realize this fold. -/
def runRound (collab : String → String → ToolResult) (ctx : List ToolResult)
    (tcs : List ToolCall) : List ToolResult :=
  tcs.foldl (fun acc tc => acc ++ [(dispatchTool collab tc).2]) ctx

theorem runRound_eq (collab : String → String → ToolResult) :
    ∀ (tcs : List ToolCall) (ctx : List ToolResult),
      runRound collab ctx tcs = ctx ++ tcs.map (fun tc => (dispatchTool collab tc).2) := by
  intro tcs
  induction tcs with
  | nil => intro ctx; simp [runRound]
  | cons tc tcs ih =>
    intro ctx
    simp only [runRound, List.foldl_cons, List.map_cons] at *
    rw [ih]
    simp

/-- C7: tool calls are returned by the codec in the order they appear in the
text (two embedded tags come out as a two-element list in text order), and
the executor appends one result per call to the context in exactly that
parse order. -/
theorem c7_tool_order_preserved :
    (∀ (pre mid post n1 a1 n2 a2 : List Char) (t1 t2 : String),
      '[' ∉ pre → '[' ∉ mid → '[' ∉ post →
      (∀ c ∈ n1, c.isUpper = true ∨ c = '_') → toolNameMap (String.mk n1) = some t1 →
      ']' ∉ a1 → '[' ∉ a1 →
      (∀ c ∈ n2, c.isUpper = true ∨ c = '_') → toolNameMap (String.mk n2) = some t2 →
      ']' ∉ a2 → '[' ∉ a2 →
      parseToolCalls (String.mk (pre ++ '[' :: (n1 ++ ':' :: (a1 ++ ']' ::
          (mid ++ '[' :: (n2 ++ ':' :: (a2 ++ ']' :: post)))))))
        = (String.mk (pre ++ (mid ++ post)),
           [{ tool := t1, arg := String.mk a1 }, { tool := t2, arg := String.mk a2 }]))
    ∧ ∀ (collab : String → String → ToolResult) (ctx : List ToolResult)
        (tcs : List ToolCall),
        runRound collab ctx tcs
          = ctx ++ tcs.map (fun tc => (dispatchTool collab tc).2) := by
  constructor
  · intro pre mid post n1 a1 n2 a2 t1 t2 hpre hmid hpost hn1 ht1 ha11 ha12 hn2 ht2 ha21 ha22
    have h1 := parseTags_split pre hpre n1 a1
      (mid ++ '[' :: (n2 ++ ':' :: (a2 ++ ']' :: post))) t1 hn1 ht1 ha11 ha12
    have h2 := parseTags_split mid hmid n2 a2 post t2 hn2 ht2 ha21 ha22
    have h3 := parseTags_noBracket post hpost
    simp [parseToolCalls, h1, h2, h3]
  · intro collab ctx tcs
    exact runRound_eq collab tcs ctx

/-- C7 witness: two concrete tags parse in text order. -/
theorem c7_tool_order_preserved_witness :
    parseToolCalls (String.mk ("A ".data ++ '[' :: ("WEB_SEARCH".data ++ ':' :: ("x".data ++ ']' ::
        (" ".data ++ '[' :: ("REACT".data ++ ':' :: ("y".data ++ ']' :: "".data)))))))
      = (String.mk ("A ".data ++ (" ".data ++ "".data)),
         [{ tool := "web-search", arg := String.mk "x".data },
          { tool := "react", arg := String.mk "y".data }]) :=
  c7_tool_order_preserved.1 "A ".data " ".data "".data "WEB_SEARCH".data "x".data
    "REACT".data "y".data "web-search" "react"
    (by decide) (by decide) (by decide) (by decide) (by decide) (by decide)
    (by decide) (by decide) (by decide) (by decide) (by decide)

/-- C8: dispatching a call whose tool name is outside the closed supported
set returns the unsupported-tool failure without contacting any collaborator,
and the round is not aborted: one result per call, failures included, is
still appended to the context. -/
theorem c8_unsupported_tool :
    ∀ (collab : String → String → ToolResult) (name arg : String),
      name ∉ supportedTools →
      dispatchTool collab { tool := name, arg := arg }
          = ([], { tool := name, success := false, payload := "unsupported tool" })
      ∧ ∀ (ctx : List ToolResult) (tcs : List ToolCall),
          (runRound collab ctx tcs).length = ctx.length + tcs.length := by
  intro collab name arg h
  constructor
  · simp [dispatchTool, h]
  · intro ctx tcs
    rw [runRound_eq]
    simp

/-- C8 witness: a concrete unknown tool name is rejected without collaborator
contact and a round over it still appends exactly its failure result. -/
theorem c8_unsupported_tool_witness :
    dispatchTool (fun n a => { tool := n, success := true, payload := a })
        { tool := "frobnicate", arg := "z" }
      = ([], { tool := "frobnicate", success := false, payload := "unsupported tool" })
    ∧ (runRound (fun n a => { tool := n, success := true, payload := a }) []
        [{ tool := "frobnicate", arg := "z" }]).length
          = ([] : List ToolResult).length + 1 :=
  ⟨(c8_unsupported_tool (fun n a => { tool := n, success := true, payload := a })
      "frobnicate" "z" (by decide)).1,
   (c8_unsupported_tool (fun n a => { tool := n, success := true, payload := a })
      "frobnicate" "z" (by decide)).2 [] [{ tool := "frobnicate", arg := "z" }]⟩

/-- Modelled from the spec: the bounded tool loop of the Agent Runtime
(section 4.5 ExecutingTools; agents/agent_service.py is not under src).
infer gives, per round index, the parsed model output: visible text plus tool
calls. With no tool calls the visible text becomes the reply; with tool calls
and remaining budget the loop re-enters inference; with the budget exhausted
the last nonempty visible text, or the fallback message, is the reply. The
result is the number of inference calls made and the posted reply. -/
def toolLoopAux (infer : Nat → String × List ToolCall) :
    Nat → Nat → Option String → Nat × String
  | remaining, round, lastVis =>
    let r := infer round
    let lastVis2 := if r.1 = "" then lastVis else some r.1
    if r.2 = [] then
      (round + 1, r.1)
    else
      match remaining with
      | 0 => (round + 1, lastVis2.getD "unable to complete")
      | k + 1 => toolLoopAux infer k (round + 1) lastVis2

/-- Modelled from the spec: running one trigger with a configured maximum
number of rounds, starting at round zero with no visible text seen yet. -/
def runTrigger (infer : Nat → String × List ToolCall) (maxRounds : Nat) :
    Nat × String :=
  toolLoopAux infer maxRounds 0 none

theorem toolLoopAux_calls_le (infer : Nat → String × List ToolCall) :
    ∀ (remaining round : Nat) (lastVis : Option String),
      (toolLoopAux infer remaining round lastVis).1 ≤ round + remaining + 1 := by
  intro remaining
  induction remaining with
  | zero =>
    intro round lastVis
    simp only [toolLoopAux]
    split
    · simp
    · simp
  | succ k ih =>
    intro round lastVis
    simp only [toolLoopAux]
    split
    · omega
    · have := ih (round + 1)
        (if (infer round).1 = "" then lastVis else some (infer round).1)
      omega

theorem toolLoopAux_const_empty (tc : ToolCall) (tcs : List ToolCall) :
    ∀ (remaining round : Nat) (lastVis : Option String),
      toolLoopAux (fun _ => ("", tc :: tcs)) remaining round lastVis
        = (round + remaining + 1, lastVis.getD "unable to complete") := by
  intro remaining
  induction remaining with
  | zero =>
    intro round lastVis
    simp [toolLoopAux]
  | succ k ih =>
    intro round lastVis
    simp only [toolLoopAux]
    rw [if_neg (show ¬(tc :: tcs = []) by simp), if_pos trivial]
    rw [ih (round + 1) lastVis]
    have harith : round + 1 + k + 1 = round + (k + 1) + 1 := by omega
    rw [harith]

theorem toolLoopAux_const_vis (v : String) (hv : ¬ (v = "")) (tc : ToolCall)
    (tcs : List ToolCall) :
    ∀ (remaining round : Nat) (lastVis : Option String),
      toolLoopAux (fun _ => (v, tc :: tcs)) remaining round lastVis
        = (round + remaining + 1, v) := by
  intro remaining
  induction remaining with
  | zero =>
    intro round lastVis
    simp [toolLoopAux, hv]
  | succ k ih =>
    intro round lastVis
    simp only [toolLoopAux]
    rw [if_neg (show ¬(tc :: tcs = []) by simp), if_neg hv]
    rw [ih (round + 1) (some v)]
    have harith : round + 1 + k + 1 = round + (k + 1) + 1 := by omega
    rw [harith]

/-- C5: for any inference behavior the tool loop of the Agent Runtime makes
at most max-rounds-plus-one inference calls, and under a stub that always
requests another tool call it makes exactly that many and terminates, with
the last visible text as the reply when the stub produced one and the
fallback unable-to-complete message when it never did. -/
theorem c5_round_bound :
    (∀ (infer : Nat → String × List ToolCall) (maxRounds : Nat),
      (runTrigger infer maxRounds).1 ≤ maxRounds + 1)
    ∧ (∀ (maxRounds : Nat) (tc : ToolCall) (tcs : List ToolCall),
      runTrigger (fun _ => ("", tc :: tcs)) maxRounds
        = (maxRounds + 1, "unable to complete"))
    ∧ ∀ (maxRounds : Nat) (v : String) (tc : ToolCall) (tcs : List ToolCall),
      ¬ (v = "") →
      runTrigger (fun _ => (v, tc :: tcs)) maxRounds = (maxRounds + 1, v) := by
  refine ⟨?_, ?_, ?_⟩
  · intro infer maxRounds
    have h := toolLoopAux_calls_le infer maxRounds 0 none
    simpa [runTrigger] using h
  · intro maxRounds tc tcs
    have h := toolLoopAux_const_empty tc tcs maxRounds 0 none
    simpa [runTrigger] using h
  · intro maxRounds v tc tcs hv
    have h := toolLoopAux_const_vis v hv tc tcs maxRounds 0 none
    simpa [runTrigger] using h

/-- C5 witness: with a budget of two rounds the always-tool-calling stub
makes exactly three inference calls and posts the stub text. -/
theorem c5_round_bound_witness :
    runTrigger (fun _ => ("draft answer", [{ tool := "react", arg := "x" }])) 2
      = (3, "draft answer") :=
  c5_round_bound.2.2 2 "draft answer" { tool := "react", arg := "x" } [] (by decide)

/-- Capability flags of an agent relevant to trigger evaluation (spec
section 3, AgentConfig). -/
structure AgentFlags where
  respondsWhenAddressed : Bool
  respondsProactively : Bool
deriving DecidableEq, Repr

/-- Per-agent cooldown state: timestamp of the last proactive reply, if any
(spec section 3, AgentRuntimeState last proactive-response timestamp). -/
structure CooldownState where
  lastProactive : Option Nat
deriving DecidableEq, Repr

/-- The two trigger kinds the cooldown rule distinguishes. -/
inductive TriggerKind where
  | addressed
  | proactive
deriving DecidableEq, Repr

/-- Modelled from the spec: the proactive cooldown has elapsed when no
proactive reply was recorded yet or the recorded time plus the cooldown is
not after the current time (spec sections 4.5 and 8; the runtime lives in
the agents layer, not under src). -/
def cooldownElapsed (c : Nat) (st : CooldownState) (now : Nat) : Bool :=
  match st.lastProactive with
  | none => true
  | some t => decide (t + c ≤ now)

/-- Modelled from the spec: trigger evaluation of the Agent Runtime
(section 4.5): an addressed trigger replies whenever the capability allows,
independent of cooldown; a proactive trigger replies only when proactive
participation is enabled and the cooldown has elapsed, and then records the
reply timestamp (CoolingDown is entered only after a proactive trigger).
The result is the reply decision and the updated state. -/
def evalTrigger (flags : AgentFlags) (c : Nat) (st : CooldownState)
    (k : TriggerKind) (now : Nat) : Bool × CooldownState :=
  match k with
  | TriggerKind.addressed => (flags.respondsWhenAddressed, st)
  | TriggerKind.proactive =>
    if flags.respondsProactively && cooldownElapsed c st now then
      (true, { lastProactive := some now })
    else (false, st)

/-- C6: once a proactive reply is posted at time T with cooldown C, a second
proactive trigger strictly before T plus C produces no reply, while an
addressed trigger during the window (at T plus one in particular) still
replies whenever the addressed capability is on. -/
theorem c6_proactive_cooldown :
    ∀ (flags : AgentFlags) (c T t : Nat) (st0 : CooldownState),
      (evalTrigger flags c st0 TriggerKind.proactive T).1 = true →
      (t < T + c →
        (evalTrigger flags c (evalTrigger flags c st0 TriggerKind.proactive T).2
          TriggerKind.proactive t).1 = false)
      ∧ (flags.respondsWhenAddressed = true →
        (evalTrigger flags c (evalTrigger flags c st0 TriggerKind.proactive T).2
          TriggerKind.addressed (T + 1)).1 = true) := by
  intro flags c T t st0 hpost
  have hst : (evalTrigger flags c st0 TriggerKind.proactive T).2
      = { lastProactive := some T } := by
    simp only [evalTrigger] at hpost ⊢
    split at hpost
    · rename_i h
      simp [h]
    · simp at hpost
  constructor
  · intro ht
    rw [hst]
    simp only [evalTrigger, cooldownElapsed]
    rw [if_neg (by simp; omega)]
  · intro haddr
    rw [hst]
    simp [evalTrigger, haddr]

/-- C6 witness: cooldown ten, proactive reply at time five, proactive trigger
at time six is suppressed and an addressed trigger at time six replies. -/
theorem c6_proactive_cooldown_witness :
    (6 < 5 + 10 →
      (evalTrigger { respondsWhenAddressed := true, respondsProactively := true } 10
        (evalTrigger { respondsWhenAddressed := true, respondsProactively := true } 10
          { lastProactive := none } TriggerKind.proactive 5).2
        TriggerKind.proactive 6).1 = false)
    ∧ (({ respondsWhenAddressed := true, respondsProactively := true } : AgentFlags).respondsWhenAddressed = true →
      (evalTrigger { respondsWhenAddressed := true, respondsProactively := true } 10
        (evalTrigger { respondsWhenAddressed := true, respondsProactively := true } 10
          { lastProactive := none } TriggerKind.proactive 5).2
        TriggerKind.addressed (5 + 1)).1 = true) :=
  c6_proactive_cooldown { respondsWhenAddressed := true, respondsProactively := true }
    10 5 6 { lastProactive := none } (by decide)

/-- Modelled from the spec: the known control tokens and sentinel markers the
strip operation removes (spec section 4.1; the repository development notes
name the think tags and the channel markers; the cleanup code lives in the
agents layer, not under src). -/
def controlTokens : List String :=
  ["<think>", "</think>", "<|channel|>", "<|message|>", "<|start|>", "<|end|>",
   "<|return|>", "<|im_start|>", "<|im_end|>"]

/-- Finds the first listed token that starts the character list and returns
the remainder after it; an empty token never matches. -/
def matchTokenAux : List (List Char) → List Char → Option (List Char)
  | [], _ => none
  | t :: ts, cs =>
    if !t.isEmpty && t.isPrefixOf cs then some (cs.drop t.length)
    else matchTokenAux ts cs

/-- Finds a known control token at the head of the character list. -/
def matchToken (cs : List Char) : Option (List Char) :=
  matchTokenAux (controlTokens.map String.data) cs

theorem isPrefixOf_le_length : ∀ (t cs : List Char),
    t.isPrefixOf cs = true → t.length ≤ cs.length := by
  intro t
  induction t with
  | nil => intro cs _; simp
  | cons a t ih =>
    intro cs h
    cases cs with
    | nil => simp [List.isPrefixOf] at h
    | cons b cs =>
      simp only [List.isPrefixOf, Bool.and_eq_true] at h
      simpa using ih cs h.2

theorem matchTokenAux_length : ∀ (ts : List (List Char)) (cs r : List Char),
    matchTokenAux ts cs = some r → r.length < cs.length := by
  intro ts
  induction ts with
  | nil => intro cs r h; simp [matchTokenAux] at h
  | cons t ts ih =>
    intro cs r h
    simp only [matchTokenAux] at h
    split at h
    · rename_i hcond
      simp only [Bool.and_eq_true, Bool.not_eq_eq_eq_not, Bool.not_false] at hcond
      have hlen := isPrefixOf_le_length t cs hcond.2
      have hne : 1 ≤ t.length := by
        cases t with
        | nil => simp [List.isEmpty] at hcond
        | cons x xs => simp
      cases h
      simp only [List.length_drop]
      omega
    · exact ih cs r h

theorem matchToken_length (cs r : List Char) (h : matchToken cs = some r) :
    r.length < cs.length :=
  matchTokenAux_length (controlTokens.map String.data) cs r h

/-- Modelled from the spec: one left-to-right pass over the text, skipping
every known control token where one starts and keeping every other character
(spec section 4.1 strip, removes known control tokens without altering other
content). The fuel argument only bounds the recursion and is always given
the input length, which suffices because every step consumes at least one
character. -/
def stripOnceAux : Nat → List Char → List Char
  | 0, cs => cs
  | _ + 1, [] => []
  | fuel + 1, c :: rest =>
    match matchToken (c :: rest) with
    | some r => stripOnceAux fuel r
    | none => c :: stripOnceAux fuel rest

/-- One token-removal pass with sufficient fuel. -/
def stripOnce (cs : List Char) : List Char := stripOnceAux cs.length cs

theorem stripOnceAux_congr : ∀ (fuel1 : Nat) (cs : List Char) (fuel2 : Nat),
    cs.length ≤ fuel1 → cs.length ≤ fuel2 →
    stripOnceAux fuel1 cs = stripOnceAux fuel2 cs := by
  intro fuel1
  induction fuel1 with
  | zero =>
    intro cs fuel2 h1 _
    have : cs = [] := by
      cases cs with
      | nil => rfl
      | cons c r => simp at h1
    subst this
    cases fuel2 <;> simp [stripOnceAux]
  | succ f ih =>
    intro cs fuel2 h1 h2
    cases cs with
    | nil => cases fuel2 <;> simp [stripOnceAux]
    | cons c rest =>
      cases fuel2 with
      | zero => simp at h2
      | succ g =>
        simp only [List.length_cons, Nat.succ_le_succ_iff] at h1 h2
        cases hm : matchToken (c :: rest) with
        | some r =>
          have hlen := matchToken_length (c :: rest) r hm
          simp only [List.length_cons] at hlen
          simp [stripOnceAux, hm, ih r g (by omega) (by omega)]
        | none => simp [stripOnceAux, hm, ih rest g h1 h2]

theorem stripOnce_nil : stripOnce [] = [] := rfl

theorem stripOnce_cons (c : Char) (rest : List Char) :
    stripOnce (c :: rest)
      = match matchToken (c :: rest) with
        | some r => stripOnce r
        | none => c :: stripOnce rest := by
  cases hm : matchToken (c :: rest) with
  | some r =>
    have hlen := matchToken_length (c :: rest) r hm
    simp only [List.length_cons] at hlen
    simp only [stripOnce, List.length_cons, stripOnceAux, hm]
    exact stripOnceAux_congr rest.length r r.length (by omega) (Nat.le_refl _)
  | none =>
    simp only [stripOnce, List.length_cons, stripOnceAux, hm]

theorem stripOnce_cons_some (c : Char) (rest r : List Char)
    (hm : matchToken (c :: rest) = some r) : stripOnce (c :: rest) = stripOnce r := by
  rw [stripOnce_cons, hm]

theorem stripOnce_cons_none (c : Char) (rest : List Char)
    (hm : matchToken (c :: rest) = none) :
    stripOnce (c :: rest) = c :: stripOnce rest := by
  rw [stripOnce_cons, hm]

theorem stripOnce_le : ∀ (n : Nat) (cs : List Char), cs.length ≤ n →
    (stripOnce cs).length ≤ cs.length := by
  intro n
  induction n with
  | zero =>
    intro cs h
    have : cs = [] := by
      cases cs with
      | nil => rfl
      | cons c r => simp at h
    subst this
    simp [stripOnce_nil]
  | succ k ih =>
    intro cs h
    cases cs with
    | nil => simp [stripOnce_nil]
    | cons c rest =>
      rw [stripOnce_cons]
      simp only [List.length_cons, Nat.succ_le_succ_iff] at h
      cases hm : matchToken (c :: rest) with
      | some r =>
        have hlen := matchToken_length (c :: rest) r hm
        simp only [List.length_cons] at hlen
        have := ih r (by omega)
        simp only [List.length_cons]
        omega
      | none =>
        have := ih rest h
        simp only [List.length_cons]
        omega

theorem stripOnce_lt (cs : List Char) (h : ¬ (stripOnce cs = cs)) :
    (stripOnce cs).length < cs.length := by
  induction cs with
  | nil => simp [stripOnce_nil] at h
  | cons c rest ih =>
    cases hm : matchToken (c :: rest) with
    | some r =>
      rw [stripOnce_cons_some c rest r hm]
      have hlen := matchToken_length (c :: rest) r hm
      have hle := stripOnce_le r.length r (Nat.le_refl _)
      omega
    | none =>
      rw [stripOnce_cons_none c rest hm] at h ⊢
      have hne : ¬ (stripOnce rest = rest) := by
        intro he
        exact h (by rw [he])
      have := ih hne
      simp only [List.length_cons]
      omega

/-- Fuel-bounded iteration of the token-removal pass to a fixpoint; each
non-fixpoint step strictly shrinks the text, so fuel equal to the length of
the input always reaches the fixpoint. -/
def stripFixAux : Nat → List Char → List Char
  | 0, cs => cs
  | n + 1, cs =>
    if stripOnce cs = cs then cs else stripFixAux n (stripOnce cs)

/-- Token removal iterated to a fixpoint over a character list. -/
def stripAll (cs : List Char) : List Char := stripFixAux cs.length cs

/-- Modelled from the spec: the strip operation of the Protocol Codec
(section 4.1): removes the known control tokens and sentinel markers,
leaving all other content untouched; iterated to a fixpoint so that token
occurrences formed by a removal are removed as well, which the idempotence
requirement of sections 4.1 and 8 forces. -/
def strip (s : String) : String := String.mk (stripAll s.data)

theorem stripFixAux_of_fixed (cs : List Char) (h : stripOnce cs = cs) :
    ∀ n : Nat, stripFixAux n cs = cs := by
  intro n
  cases n with
  | zero => rfl
  | succ k => simp [stripFixAux, h]

theorem stripFixAux_fixed : ∀ (n : Nat) (cs : List Char), cs.length ≤ n →
    stripOnce (stripFixAux n cs) = stripFixAux n cs := by
  intro n
  induction n with
  | zero =>
    intro cs h
    have : cs = [] := by
      cases cs with
      | nil => rfl
      | cons c r => simp at h
    subst this
    simp [stripFixAux, stripOnce_nil]
  | succ k ih =>
    intro cs h
    simp only [stripFixAux]
    by_cases hf : stripOnce cs = cs
    · simp [hf]
    · rw [if_neg hf]
      exact ih (stripOnce cs) (by have := stripOnce_lt cs hf; omega)

theorem stripAll_fixed (cs : List Char) :
    stripOnce (stripAll cs) = stripAll cs :=
  stripFixAux_fixed cs.length cs (Nat.le_refl _)

theorem stripAll_idem (cs : List Char) : stripAll (stripAll cs) = stripAll cs :=
  stripFixAux_of_fixed (stripAll cs) (stripAll_fixed cs) (stripAll cs).length

/-- Decides that no known control token occurs anywhere in the text. -/
def tokenFree : List Char → Bool
  | [] => true
  | c :: rest => (matchToken (c :: rest)).isNone && tokenFree rest

theorem tokenFree_stripOnce : ∀ (cs : List Char), tokenFree cs = true →
    stripOnce cs = cs := by
  intro cs
  induction cs with
  | nil => intro _; rfl
  | cons c rest ih =>
    intro h
    simp only [tokenFree, Bool.and_eq_true, Option.isNone_iff_eq_none] at h
    rw [stripOnce_cons, h.1, ih h.2]

theorem stripOnce_fixed_tokenFree : ∀ (cs : List Char), stripOnce cs = cs →
    tokenFree cs = true := by
  intro cs
  induction cs with
  | nil => intro _; rfl
  | cons c rest ih =>
    intro h
    cases hm : matchToken (c :: rest) with
    | some r =>
      rw [stripOnce_cons_some c rest r hm] at h
      have hlen := matchToken_length (c :: rest) r hm
      have hle := stripOnce_le r.length r (Nat.le_refl _)
      have hcontr : (stripOnce r).length = (c :: rest).length := by rw [h]
      simp only [List.length_cons] at hcontr hlen
      omega
    | none =>
      rw [stripOnce_cons_none c rest hm] at h
      have htl : stripOnce rest = rest := (List.cons.inj h).2
      simp [tokenFree, hm, ih htl]

/-- C4: the strip operation is idempotent, its output never contains a known
control token, and it does not alter token-free content. -/
theorem c4_strip_idempotent :
    (∀ s : String, strip (strip s) = strip s)
    ∧ (∀ s : String, tokenFree (strip s).data = true)
    ∧ ∀ s : String, tokenFree s.data = true → strip s = s := by
  refine ⟨?_, ?_, ?_⟩
  · intro s
    show String.mk (stripAll (stripAll s.data)) = String.mk (stripAll s.data)
    rw [stripAll_idem]
  · intro s
    show tokenFree (stripAll s.data) = true
    exact stripOnce_fixed_tokenFree (stripAll s.data) (stripAll_fixed s.data)
  · intro s h
    show String.mk (stripAll s.data) = s
    rw [stripAll, stripFixAux_of_fixed s.data (tokenFree_stripOnce s.data h)]

/-- C4 witness: a token-free text passes through strip unchanged. -/
theorem c4_strip_idempotent_witness :
    tokenFree "hello world".data = true ∧ strip "hello world" = "hello world" :=
  ⟨by decide, c4_strip_idempotent.2.2 "hello world" (by decide)⟩

/-- The image file extensions of the media pattern in ChatSidebar.tsx
line 85. -/
def imageExts : List String :=
  ["jpg", "jpeg", "png", "gif", "webp", "svg", "bmp", "ico"]

/-- Case-insensitive match of one extension alternative that must be followed
by a query mark or the end of the string, as the image regex requires. -/
def matchExtAlt : List Char → List Char → Bool
  | [], rest => rest.isEmpty || rest.head? == some '?'
  | _ :: _, [] => false
  | e :: es, c :: cs => (c.toLower == e) && matchExtAlt es cs

/-- True when the character list starts with a dot, one of the image
extensions and then a query mark or the end: one match position of the image
regex of ChatSidebar.tsx line 85. -/
def isImageAt : List Char → Bool
  | '.' :: rest => imageExts.any (fun e => matchExtAlt e.data rest)
  | _ => false

/-- True when the image-extension pattern matches at some position. -/
def hasImageExt : List Char → Bool
  | [] => false
  | c :: rest => isImageAt (c :: rest) || hasImageExt rest

/-- The IMAGE_PATTERN test of ChatSidebar.tsx applied to a URL string. -/
def isImageUrl (s : String) : Bool := hasImageExt s.data

/-- Removal of the first occurrence of a pattern from a character list: the
semantics of the JS String replace with a plain string pattern and an empty
replacement, used on the hostname in ChatSidebar.tsx line 214. -/
def removeFirst (pat : List Char) : List Char → List Char
  | [] => []
  | c :: rest =>
    if pat.isPrefixOf (c :: rest) then (c :: rest).drop pat.length
    else c :: removeFirst pat rest

/-- One classified URL match of the content extraction in ChatSidebar.tsx. -/
inductive UrlClass where
  | media (url : String)
  | link (url : String) (domain : String)
  | skipped
deriving DecidableEq, Repr

/-- Classification of one string matched by the URL pattern, transcribed from
ChatSidebar.tsx lines 206-219: host is the hostname produced by the platform
URL constructor, none when construction throws, in which case the catch
ignores the match; an image-pattern match goes to media, anything else
becomes a link whose domain is the hostname with its first occurrence of the
four characters www-dot removed. -/
def classifyUrl (host : Option String) (url : String) : UrlClass :=
  match host with
  | none => UrlClass.skipped
  | some h =>
    if isImageUrl url then UrlClass.media url
    else UrlClass.link url (String.mk (removeFirst "www.".data h.data))

/-- The domain as the claim describes it: the hostname with a leading
www-dot removed, and only a leading one. -/
def claimDomain (h : String) : String :=
  if "www.".data.isPrefixOf h.data then String.mk (h.data.drop 4) else h

/-- Classification as the claim states it, differing from the code only in
how the link domain is derived from the hostname. -/
def claimClassifyUrl (host : Option String) (url : String) : UrlClass :=
  match host with
  | none => UrlClass.skipped
  | some h =>
    if isImageUrl url then UrlClass.media url
    else UrlClass.link url (claimDomain h)

theorem removeFirst_of_isPrefixOf (pat cs : List Char) (hne : ¬ (pat = []))
    (h : pat.isPrefixOf cs = true) : removeFirst pat cs = cs.drop pat.length := by
  cases cs with
  | nil =>
    cases pat with
    | nil => exact absurd rfl hne
    | cons p ps => simp [List.isPrefixOf] at h
  | cons c rest => simp [removeFirst, h]

/-- C10 counterexample: for the hostname awww.example.com the code removes
the first www-dot occurrence inside the name, producing the domain
aexample.com, while the claim removes only a leading one and keeps the
hostname unchanged, so the classification of the code differs from the
claimed classification on this match. -/
theorem c10_counterexample :
    classifyUrl (some "awww.example.com") "http://awww.example.com/a"
        = UrlClass.link "http://awww.example.com/a" "aexample.com"
    ∧ claimClassifyUrl (some "awww.example.com") "http://awww.example.com/a"
        = UrlClass.link "http://awww.example.com/a" "awww.example.com"
    ∧ classifyUrl (some "awww.example.com") "http://awww.example.com/a"
        ≠ claimClassifyUrl (some "awww.example.com") "http://awww.example.com/a" := by
  refine ⟨?_, ?_, ?_⟩ <;> decide

/-- C10 amended: every URL-pattern match lands in exactly one category:
skipped when URL construction fails, media exactly when the image pattern
matches, and otherwise a link whose domain is the hostname with its first
occurrence of www-dot removed, anywhere in the hostname (the JS replace
semantics); when the hostname does start with www-dot that first occurrence
is the leading one, matching the claim on such hostnames. -/
theorem c10_url_classification :
    ∀ (url h : String),
      classifyUrl none url = UrlClass.skipped
      ∧ (classifyUrl (some h) url = UrlClass.media url ↔ isImageUrl url = true)
      ∧ (isImageUrl url = false →
          classifyUrl (some h) url
            = UrlClass.link url (String.mk (removeFirst "www.".data h.data)))
      ∧ ("www.".data.isPrefixOf h.data = true →
          String.mk (removeFirst "www.".data h.data)
            = String.mk (h.data.drop 4)) := by
  intro url h
  refine ⟨rfl, ?_, ?_, ?_⟩
  · constructor
    · intro hcl
      by_cases him : isImageUrl url = true
      · exact him
      · rw [Bool.not_eq_true] at him
        simp [classifyUrl, him] at hcl
    · intro him
      simp [classifyUrl, him]
  · intro him
    simp [classifyUrl, him]
  · intro hpre
    rw [removeFirst_of_isPrefixOf "www.".data h.data (by decide) hpre]
    rfl

/-- C10 witness: a hostname with a leading www-dot yields the link domain the
claim expects, the dropped four leading characters. -/
theorem c10_url_classification_witness :
    (isImageUrl "http://www.example.com/a" = false →
      classifyUrl (some "www.example.com") "http://www.example.com/a"
        = UrlClass.link "http://www.example.com/a"
            (String.mk (removeFirst "www.".data "www.example.com".data)))
    ∧ ("www.".data.isPrefixOf "www.example.com".data = true →
      String.mk (removeFirst "www.".data "www.example.com".data)
        = String.mk ("www.example.com".data.drop 4)) :=
  ⟨fun hm => ((c10_url_classification "http://www.example.com/a" "www.example.com").2.2.1 hm),
   fun hp => ((c10_url_classification "http://www.example.com/a" "www.example.com").2.2.2 hp)⟩
